import Mathlib

/-!
Shallow embedding of `src/python.rs` (pyproject.toml / requirements.txt
dependency extraction), together with proofs about its behaviour.

Strings are modelled as Lean `String` (a list of Unicode scalar values, as in
Rust). The Rust character classification methods (`char::is_alphabetic`,
`char::is_whitespace`, `char::is_lowercase`) test Unicode properties; they are
embedded below by tables that are exact on the Latin-1 range U+0000..U+00FF
and classify every code point above U+00FF negatively (resp. map it to
itself).  All universally quantified proofs below depend only on the
classification of the ASCII separator/terminator characters and on the facts
that ASCII-lowercasing maps the table into itself, so they are insensitive to
how the tables extend above U+00FF; concrete evaluations only use Latin-1
characters, where the tables agree with Rust exactly.
-/

namespace PythonDeps

/-- Embeds Rust `char::is_whitespace` (Unicode `White_Space`): exact on
Latin-1 (U+0009..U+000D, U+0020, U+0085, U+00A0). -/
def is_whitespace (c : Char) : Bool :=
  (9 ≤ c.toNat && c.toNat ≤ 13) || c.toNat == 32 || c.toNat == 0x85 || c.toNat == 0xA0

/-- Embeds Rust `char::is_alphabetic` (Unicode `Alphabetic`): exact on
Latin-1 (A-Z, a-z, ª, µ, º, À-ÿ except × and ÷). -/
def is_alphabetic (c : Char) : Bool :=
  (65 ≤ c.toNat && c.toNat ≤ 90) || (97 ≤ c.toNat && c.toNat ≤ 122) ||
  c.toNat == 0xAA || c.toNat == 0xB5 || c.toNat == 0xBA ||
  (0xC0 ≤ c.toNat && c.toNat ≤ 0xFF && c.toNat != 0xD7 && c.toNat != 0xF7)

/-- Embeds Rust `char::is_lowercase` (Unicode `Lowercase`): exact on Latin-1
(a-z, ª, µ, º, ß-ÿ except ÷). Used only to state spec claims about
"lowercase" output. -/
def is_lowercase (c : Char) : Bool :=
  (97 ≤ c.toNat && c.toNat ≤ 122) ||
  c.toNat == 0xAA || c.toNat == 0xB5 || c.toNat == 0xBA ||
  (0xDF ≤ c.toNat && c.toNat ≤ 0xFF && c.toNat != 0xF7)

/-- Embeds Rust `char::to_ascii_lowercase`: maps `A`-`Z` to `a`-`z` and
leaves every other character (including non-ASCII uppercase letters)
unchanged. -/
def to_ascii_lowercase (c : Char) : Char :=
  if 65 ≤ c.toNat ∧ c.toNat ≤ 90 then Char.ofNat (c.toNat + 32) else c

/-- Embeds the character-level lowercase mapping used by Rust
`str::to_lowercase`: exact on Latin-1, where every lowercase mapping is a
single character (`A`-`Z` and `À`-`Þ` except `×` shift by 32; `µ` maps to
Greek `μ`); identity above U+00FF in this model. -/
def to_lowercase_char (c : Char) : Char :=
  if 65 ≤ c.toNat ∧ c.toNat ≤ 90 then Char.ofNat (c.toNat + 32)
  else if c.toNat = 0xB5 then 'μ'
  else if 0xC0 ≤ c.toNat ∧ c.toNat ≤ 0xDE ∧ c.toNat ≠ 0xD7 then Char.ofNat (c.toNat + 32)
  else c

/-- The scanning loop of `get_python_dependency` (the `while let` in
`src/python.rs`, lines 104-118), written as a function from the remaining
input characters to the list of characters it appends to `name`:
an alphabetic character is lowercased and kept; a separator `-`/`.`/`_`
followed by an alphabetic character becomes a single `-` plus that character
lowercased; a separator followed by anything else, or any other character,
stops the scan. -/
def scan_name : List Char → List Char
  | [] => []
  | c :: rest =>
    if is_alphabetic c then
      to_ascii_lowercase c :: scan_name rest
    else if c = '-' ∨ c = '.' ∨ c = '_' then
      match rest with
      | [] => []
      | c2 :: rest2 =>
        if is_alphabetic c2 then '-' :: to_ascii_lowercase c2 :: scan_name rest2
        else []
    else []

/-- Embeds `get_python_dependency` (`src/python.rs`, lines 95-121): skip
leading whitespace, require an alphabetic first character (else `None`),
then accumulate the lowercased name via the scanning loop. -/
def get_python_dependency (dep : String) : Option String :=
  match dep.data.dropWhile is_whitespace with
  | [] => none
  | x :: rest =>
    if is_alphabetic x then some (⟨to_ascii_lowercase x :: scan_name rest⟩) else none

/-- Embeds the `Project` struct: the `[project]` section of a
`pyproject.toml` (name, license, PEP 621 dependency list). -/
structure Project where
  name : Option String
  license : Option String
  dependencies : Option (List String)
  deriving DecidableEq

/-- Embeds the `Poetry` struct: the `[tool.poetry]` section. The
`dependencies` field of the Rust struct is `BTreeSet<(String, ())>` (the
TOML values are erased to `()` on deserialization); it is modelled as a
list of key/unit pairs without duplicate keys. -/
structure Poetry where
  name : Option String
  license : Option String
  dependencies : Option (List (String × Unit))
  deriving DecidableEq

/-- Embeds the `Tool` struct wrapping the `Poetry` section. -/
structure Tool where
  poetry : Poetry
  deriving DecidableEq

/-- Embeds the `Pyproject` struct. -/
structure Pyproject where
  project : Project
  tool : Tool
  deriving DecidableEq

/-- Embeds `Pyproject::get_name`
(`self.project.name.take().or_else(|| self.tool.poetry.name.take())`).
The Rust method mutates `self`; it is modelled as a function returning the
result together with the updated record. `Option::take` on the project name
runs first; the poetry name is taken only when the project name was `None`. -/
def get_name (p : Pyproject) : Option String × Pyproject :=
  match p.project.name with
  | some n => (some n, { p with project := { p.project with name := none } })
  | none =>
    match p.tool.poetry.name with
    | some n => (some n, { p with tool := { poetry := { p.tool.poetry with name := none } } })
    | none => (none, p)

/-- The license text `load_license` hands to the SPDX parser:
`self.project.license.as_ref().or(self.tool.poetry.license.as_ref())`. -/
def selected_license (p : Pyproject) : Option String :=
  match p.project.license with
  | some l => some l
  | none => p.tool.poetry.license

/-- Embeds `BTreeMap::insert` on the license-weight map: if the key is
already present its value is replaced, otherwise the binding is appended.
The map is modelled as an association list with at most one binding per
key; weights (`f32` in Rust) are modelled as rationals. -/
def map_insert : List (String × ℚ) → String → ℚ → List (String × ℚ)
  | [], k, v => [(k, v)]
  | (k0, v0) :: rest, k, v =>
    if k0 = k then (k, v) :: rest else (k0, v0) :: map_insert rest k v

/-- Embeds `BTreeMap::get` on the license-weight map. -/
def map_lookup : List (String × ℚ) → String → Option ℚ
  | [], _ => none
  | (k0, v0) :: rest, k => if k0 = k then some v0 else map_lookup rest k

/-- Embeds `Pyproject::load_license` (`src/python.rs`, lines 57-68). The
SPDX expression parser `parse_spdx_expression` lives outside this file's
sources and is an external collaborator per the spec, so it is passed as a
parameter `spdx` (license text and source label to identifier list); every
identifier it returns is inserted with weight `1.0`. -/
def load_license (spdx : String → String → List String) (p : Pyproject)
    (licenses : List (String × ℚ)) : List (String × ℚ) :=
  match selected_license p with
  | some license =>
    (spdx license ("pyproject.toml")).foldl (fun m id => map_insert m id 1) licenses
  | none => licenses

/-- The key transformation of the Poetry branch of `get_dependencies`:
`dep.to_lowercase().replace(['_', '.'], "-")`. -/
def poetry_dep_key (dep : String) : String :=
  ⟨(dep.data.map to_lowercase_char).map (fun c => if c = '_' ∨ c = '.' then '-' else c)⟩

/-- Embeds `Pyproject::get_dependencies` (`src/python.rs`, lines 70-83),
modelled like `get_name` as result plus updated record. If the project
dependency list is present it is taken and each entry is filtered through
`get_python_dependency`; otherwise, if the poetry dependency set is present
it is taken, the `("python", ())` element is removed (rendered as a filter,
since a `BTreeSet` holds each element at most once), and each remaining key
is lowercased with separators replaced; otherwise the result is `none`.
The result sets (`BTreeSet<String>` in Rust) are modelled as lists; only
membership matters to the claims. -/
def get_dependencies (p : Pyproject) : Option (List String) × Pyproject :=
  match p.project.dependencies with
  | some deps =>
    (some (deps.filterMap get_python_dependency),
     { p with project := { p.project with dependencies := none } })
  | none =>
    match p.tool.poetry.dependencies with
    | some deps =>
      (some ((deps.filter (fun kv => kv ≠ (("python"), ()))).map
         (fun kv => poetry_dep_key kv.1)),
       { p with tool := { poetry := { p.tool.poetry with dependencies := none } } })
    | none => (none, p)

/-- Embeds `parse_requirements_txt` (`src/python.rs`, lines 86-93).
Filesystem access is external (spec §6): the outcome of
`File::open(src.join("requirements.txt"))` and of reading its lines is the
parameter `file` - `none` when the file does not exist or cannot be opened,
otherwise the list of per-line read outcomes, where an undecodable line
reads as `none` (`ok_warn` logs and discards the error). Each successfully
read line is passed through `get_python_dependency` and failures are
dropped. -/
def parse_requirements_txt (file : Option (List (Option String))) : Option (List String) :=
  file.map (fun lines => lines.filterMap (fun line => line.bind get_python_dependency))

/-! Character-level lemmas. -/

theorem toNat_ofNat_small (n : Nat) (h : n < 0xD800) : (Char.ofNat n).toNat = n := by
  have hv : Nat.isValidChar n := Or.inl h
  simp only [Char.ofNat, dif_pos hv]
  rfl

theorem char_eq_of_toNat (a b : Char) (h : a.toNat = b.toNat) : a = b :=
  Char.ext (UInt32.ext h)

theorem lower_toNat_of_upper (c : Char) (h1 : 65 ≤ c.toNat) (h2 : c.toNat ≤ 90) :
    (to_ascii_lowercase c).toNat = c.toNat + 32 := by
  have h : 65 ≤ c.toNat ∧ c.toNat ≤ 90 := ⟨h1, h2⟩
  simp only [to_ascii_lowercase, if_pos h]
  exact toNat_ofNat_small _ (by omega)

theorem lower_eq_of_not_upper (c : Char) (h : ¬(65 ≤ c.toNat ∧ c.toNat ≤ 90)) :
    to_ascii_lowercase c = c := by
  simp only [to_ascii_lowercase, if_neg h]

theorem alpha_lower (c : Char) (h : is_alphabetic c = true) :
    is_alphabetic (to_ascii_lowercase c) = true := by
  by_cases hu : 65 ≤ c.toNat ∧ c.toNat ≤ 90
  · have ht := lower_toNat_of_upper c hu.1 hu.2
    simp only [is_alphabetic, Bool.or_eq_true, Bool.and_eq_true, decide_eq_true_eq,
      beq_iff_eq, bne_iff_ne, ne_eq] at h ⊢
    omega
  · rw [lower_eq_of_not_upper c hu]
    exact h

theorem lower_not_upper (c : Char) :
    ¬(65 ≤ (to_ascii_lowercase c).toNat ∧ (to_ascii_lowercase c).toNat ≤ 90) := by
  by_cases hu : 65 ≤ c.toNat ∧ c.toNat ≤ 90
  · have ht := lower_toNat_of_upper c hu.1 hu.2
    omega
  · rw [lower_eq_of_not_upper c hu]
    exact hu

theorem lower_idem (c : Char) :
    to_ascii_lowercase (to_ascii_lowercase c) = to_ascii_lowercase c :=
  lower_eq_of_not_upper _ (lower_not_upper c)

theorem lower_ne (d : Char) (hd : is_alphabetic d = false) (c : Char)
    (hc : is_alphabetic c = true) : to_ascii_lowercase c ≠ d := by
  intro heq
  have h := alpha_lower c hc
  rw [heq, hd] at h
  exact Bool.false_ne_true h

theorem ws_false_of_alpha (c : Char) (h : is_alphabetic c = true) :
    is_whitespace c = false := by
  simp only [is_alphabetic, Bool.or_eq_true, Bool.and_eq_true, decide_eq_true_eq,
    beq_iff_eq, bne_iff_ne, ne_eq] at h
  simp only [is_whitespace, Bool.or_eq_false_iff, Bool.and_eq_false_iff,
    decide_eq_false_iff_not, beq_eq_false_iff_ne, ne_eq]
  omega

/-! Shape of the scanner output. -/

/-- Characterization of the lists the scanning loop can append to the name:
possibly empty, every hyphen immediately followed by a lowercased alphabetic
character, never ending in a hyphen. -/
inductive NormTail : List Char → Prop
  | nil : NormTail []
  | alpha (a : Char) (l : List Char) (ha : is_alphabetic a = true) (hl : NormTail l) :
      NormTail (to_ascii_lowercase a :: l)
  | sep (a : Char) (l : List Char) (ha : is_alphabetic a = true) (hl : NormTail l) :
      NormTail ('-' :: to_ascii_lowercase a :: l)

theorem scan_name_nil : scan_name [] = [] := scan_name.eq_1

theorem scan_name_cons_alpha (c : Char) (rest : List Char) (h : is_alphabetic c = true) :
    scan_name (c :: rest) = to_ascii_lowercase c :: scan_name rest := by
  rw [scan_name.eq_def]
  simp only [h, if_true]

theorem scan_name_cons_other (c : Char) (rest : List Char) (h1 : is_alphabetic c = false)
    (h2 : ¬(c = '-' ∨ c = '.' ∨ c = '_')) : scan_name (c :: rest) = [] := by
  rw [scan_name.eq_def]
  simp only [h1, Bool.false_eq_true, if_false, h2]

theorem scan_name_sep_nil (c : Char) (h1 : is_alphabetic c = false)
    (h2 : c = '-' ∨ c = '.' ∨ c = '_') : scan_name [c] = [] := by
  rw [scan_name.eq_def]
  simp only [h1, Bool.false_eq_true, if_false, h2, if_true]

theorem scan_name_sep_alpha (c c2 : Char) (rest2 : List Char) (h1 : is_alphabetic c = false)
    (h2 : c = '-' ∨ c = '.' ∨ c = '_') (h3 : is_alphabetic c2 = true) :
    scan_name (c :: c2 :: rest2) = '-' :: to_ascii_lowercase c2 :: scan_name rest2 := by
  rw [scan_name.eq_def]
  simp only [h1, Bool.false_eq_true, if_false, h2, if_true, h3]

theorem scan_name_sep_notalpha (c c2 : Char) (rest2 : List Char) (h1 : is_alphabetic c = false)
    (h2 : c = '-' ∨ c = '.' ∨ c = '_') (h3 : is_alphabetic c2 = false) :
    scan_name (c :: c2 :: rest2) = [] := by
  rw [scan_name.eq_def]
  simp only [h1, h3, Bool.false_eq_true, if_false, h2, if_true]

theorem scan_name_normTail : ∀ cs : List Char, NormTail (scan_name cs)
  | [] => scan_name_nil ▸ NormTail.nil
  | [c] => by
    by_cases h1 : is_alphabetic c
    · rw [scan_name_cons_alpha c [] h1, scan_name_nil]
      exact NormTail.alpha c [] h1 NormTail.nil
    · have h1f : is_alphabetic c = false := by simpa using h1
      by_cases h2 : c = '-' ∨ c = '.' ∨ c = '_'
      · rw [scan_name_sep_nil c h1f h2]
        exact NormTail.nil
      · rw [scan_name_cons_other c [] h1f h2]
        exact NormTail.nil
  | c :: c2 :: rest2 => by
    by_cases h1 : is_alphabetic c
    · rw [scan_name_cons_alpha c (c2 :: rest2) h1]
      exact NormTail.alpha c _ h1 (scan_name_normTail (c2 :: rest2))
    · have h1f : is_alphabetic c = false := by simpa using h1
      by_cases h2 : c = '-' ∨ c = '.' ∨ c = '_'
      · by_cases h3 : is_alphabetic c2
        · rw [scan_name_sep_alpha c c2 rest2 h1f h2 h3]
          exact NormTail.sep c2 _ h3 (scan_name_normTail rest2)
        · have h3f : is_alphabetic c2 = false := by simpa using h3
          rw [scan_name_sep_notalpha c c2 rest2 h1f h2 h3f]
          exact NormTail.nil
      · rw [scan_name_cons_other c (c2 :: rest2) h1f h2]
        exact NormTail.nil

theorem normTail_chars {l : List Char} (h : NormTail l) :
    ∀ x ∈ l, x = '-' ∨ ∃ a, is_alphabetic a = true ∧ x = to_ascii_lowercase a := by
  induction h with
  | nil => simp
  | alpha a l ha hl ih =>
    intro x hx
    rcases List.mem_cons.mp hx with h | h
    · exact Or.inr ⟨a, ha, h⟩
    · exact ih x h
  | sep a l ha hl ih =>
    intro x hx
    rcases List.mem_cons.mp hx with h | h
    · exact Or.inl h
    · rcases List.mem_cons.mp h with h | h
      · exact Or.inr ⟨a, ha, h⟩
      · exact ih x h

theorem normTail_last_alpha {l : List Char} (h : NormTail l) :
    ∀ c, l.getLast? = some c → is_alphabetic c = true := by
  induction h with
  | nil => simp
  | alpha a l ha hl ih =>
    intro c hc
    cases l with
    | nil =>
      simp only [List.getLast?_singleton, Option.some.injEq] at hc
      rw [← hc]
      exact alpha_lower a ha
    | cons b t =>
      rw [List.getLast?_cons_cons] at hc
      exact ih c hc
  | sep a l ha hl ih =>
    intro c hc
    rw [List.getLast?_cons_cons] at hc
    cases l with
    | nil =>
      simp only [List.getLast?_singleton, Option.some.injEq] at hc
      rw [← hc]
      exact alpha_lower a ha
    | cons b t =>
      rw [List.getLast?_cons_cons] at hc
      exact ih c hc

theorem normTail_chain {l : List Char} (h : NormTail l) :
    l.Chain' (fun a b => ¬(a = '-' ∧ b = '-')) := by
  induction h with
  | nil => simp
  | alpha a l ha hl ih =>
    rw [List.chain'_cons']
    refine ⟨fun y _ hc => lower_ne '-' (by decide) a ha hc.1, ih⟩
  | sep a l ha hl ih =>
    rw [List.chain'_cons']
    constructor
    · intro y hy hc
      simp only [List.head?_cons, Option.mem_def, Option.some.injEq] at hy
      exact lower_ne '-' (by decide) a ha (by rw [hy]; exact hc.2)
    · rw [List.chain'_cons']
      exact ⟨fun y _ hc => lower_ne '-' (by decide) a ha hc.1, ih⟩

theorem scan_name_fix {l : List Char} (h : NormTail l) : scan_name l = l := by
  induction h with
  | nil => exact scan_name_nil
  | alpha a l ha hl ih =>
    rw [scan_name_cons_alpha _ _ (alpha_lower a ha), lower_idem, ih]
  | sep a l ha hl ih =>
    rw [scan_name_sep_alpha '-' _ _ (by decide) (Or.inl rfl) (alpha_lower a ha),
      lower_idem, ih]

/-! Structure of normalizer results. -/

theorem gpd_shape {s n : String} (h : get_python_dependency s = some n) :
    ∃ x rest, s.data.dropWhile is_whitespace = x :: rest ∧ is_alphabetic x = true ∧
      n.data = to_ascii_lowercase x :: scan_name rest := by
  unfold get_python_dependency at h
  cases hd : s.data.dropWhile is_whitespace with
  | nil =>
    rw [hd] at h
    exact absurd h (by simp)
  | cons x rest =>
    rw [hd] at h
    by_cases hx : is_alphabetic x
    · simp only [hx, if_true, Option.some.injEq] at h
      exact ⟨x, rest, rfl, hx, by rw [← h]⟩
    · simp [hx] at h

theorem gpd_of_cons {s : String} (x : Char) (rest : List Char)
    (hd : s.data.dropWhile is_whitespace = x :: rest) (hx : is_alphabetic x = true) :
    get_python_dependency s = some (⟨to_ascii_lowercase x :: scan_name rest⟩) := by
  unfold get_python_dependency
  rw [hd]
  simp only [hx, if_true]

theorem gpd_chars {s n : String} (h : get_python_dependency s = some n) :
    ∀ c ∈ n.data, c = '-' ∨ ∃ a, is_alphabetic a = true ∧ c = to_ascii_lowercase a := by
  obtain ⟨x, rest, hd, hx, hn⟩ := gpd_shape h
  rw [hn]
  intro c hc
  rcases List.mem_cons.mp hc with hm | hm
  · exact Or.inr ⟨x, hx, hm⟩
  · exact normTail_chars (scan_name_normTail rest) c hm

theorem gpd_last_alpha {s n : String} (h : get_python_dependency s = some n) :
    ∀ c, n.data.getLast? = some c → is_alphabetic c = true := by
  obtain ⟨x, rest, hd, hx, hn⟩ := gpd_shape h
  rw [hn]
  intro c hc
  cases htail : scan_name rest with
  | nil =>
    rw [htail] at hc
    simp only [List.getLast?_singleton, Option.some.injEq] at hc
    rw [← hc]
    exact alpha_lower x hx
  | cons b t =>
    rw [htail, List.getLast?_cons_cons] at hc
    exact normTail_last_alpha (htail ▸ scan_name_normTail rest) c hc

/-! Unfolding lemmas for the manifest accessors. -/

theorem get_dependencies_project (p : Pyproject) (l : List String)
    (h : p.project.dependencies = some l) :
    get_dependencies p =
      (some (l.filterMap get_python_dependency),
       { p with project := { p.project with dependencies := none } }) := by
  unfold get_dependencies
  rw [h]

theorem get_dependencies_poetry (p : Pyproject) (ks : List (String × Unit))
    (h1 : p.project.dependencies = none) (h2 : p.tool.poetry.dependencies = some ks) :
    get_dependencies p =
      (some ((ks.filter (fun kv => kv ≠ (("python"), ()))).map (fun kv => poetry_dep_key kv.1)),
       { p with tool := { poetry := { p.tool.poetry with dependencies := none } } }) := by
  unfold get_dependencies
  rw [h1, h2]

theorem get_dependencies_none (p : Pyproject)
    (h1 : p.project.dependencies = none) (h2 : p.tool.poetry.dependencies = none) :
    get_dependencies p = (none, p) := by
  unfold get_dependencies
  rw [h1, h2]

/-! License map lemmas. -/

theorem lookup_insert_self (m : List (String × ℚ)) (k : String) (v : ℚ) :
    map_lookup (map_insert m k v) k = some v := by
  induction m with
  | nil => simp [map_insert, map_lookup]
  | cons kv rest ih =>
    by_cases h : kv.1 = k
    · simp [map_insert, map_lookup, h]
    · simp [map_insert, map_lookup, h, ih]

theorem lookup_insert_other (m : List (String × ℚ)) (k k2 : String) (v : ℚ) (h : k2 ≠ k) :
    map_lookup (map_insert m k v) k2 = map_lookup m k2 := by
  have hne : ¬(k = k2) := fun he => h he.symm
  induction m with
  | nil => simp [map_insert, map_lookup, hne]
  | cons kv rest ih =>
    by_cases hk : kv.1 = k
    · simp [map_insert, map_lookup, hk, hne]
    · simp [map_insert, map_lookup, hk, ih]

theorem lookup_foldl_insert (ids : List String) (m : List (String × ℚ)) (x : String) :
    map_lookup (ids.foldl (fun acc i => map_insert acc i 1) m) x =
      if x ∈ ids then some 1 else map_lookup m x := by
  induction ids generalizing m with
  | nil => simp
  | cons i ids ih =>
    rw [List.foldl_cons, ih]
    by_cases hm : x ∈ ids
    · simp [hm, List.mem_cons]
    · by_cases hx : x = i
      · simp [hm, hx, List.mem_cons, lookup_insert_self]
      · simp [hm, hx, List.mem_cons, lookup_insert_other _ _ _ _ hx]

theorem load_license_some (spdx : String → String → List String) (p : Pyproject)
    (l : String) (h : selected_license p = some l) (m : List (String × ℚ)) :
    load_license spdx p m =
      (spdx l ("pyproject.toml")).foldl (fun acc i => map_insert acc i 1) m := by
  unfold load_license
  rw [h]

theorem load_license_none (spdx : String → String → List String) (p : Pyproject)
    (h : selected_license p = none) (m : List (String × ℚ)) :
    load_license spdx p m = m := by
  unfold load_license
  rw [h]

/-! The claims. -/

/-- C1 (amended): for every input on which `get_python_dependency` returns
some result, that result is non-empty, its first and last characters are
alphabetic, every character is either `-` or an alphabetic character that is
fixed by ASCII-lowercasing (hence never an ASCII uppercase letter, and fully
lowercase whenever the result is ASCII), and no two hyphens are adjacent.
The unamended claim that every character is a lowercase letter fails for
non-ASCII alphabetic input, which `to_ascii_lowercase` passes through
unchanged: see the counterexample. -/
theorem c1_normalized_shape (s n : String) (h : get_python_dependency s = some n) :
    n ≠ "" ∧
    (∃ c cs, n.data = c :: cs ∧ is_alphabetic c = true) ∧
    (∃ c, n.data.getLast? = some c ∧ is_alphabetic c = true) ∧
    (∀ c ∈ n.data, c = '-' ∨ (is_alphabetic c = true ∧ to_ascii_lowercase c = c)) ∧
    n.data.Chain' (fun a b => ¬(a = '-' ∧ b = '-')) := by
  obtain ⟨x, rest, hd, hx, hn⟩ := gpd_shape h
  refine ⟨?_, ?_, ?_, ?_, ?_⟩
  · intro he
    rw [he] at hn
    exact absurd hn (by simp [String.data])
  · exact ⟨to_ascii_lowercase x, scan_name rest, hn, alpha_lower x hx⟩
  · have hne : n.data ≠ [] := by rw [hn]; simp
    obtain ⟨c, hc⟩ := Option.isSome_iff_exists.mp (List.getLast?_isSome.mpr hne)
    exact ⟨c, hc, gpd_last_alpha h c hc⟩
  · intro c hc
    rcases gpd_chars h c hc with hm | ⟨a, ha, hm⟩
    · exact Or.inl hm
    · refine Or.inr ⟨by rw [hm]; exact alpha_lower a ha, by rw [hm]; exact lower_idem a⟩
  · rw [hn, List.chain'_cons']
    exact ⟨fun y _ hc => lower_ne '-' (by decide) x hx hc.1,
      normTail_chain (scan_name_normTail rest)⟩

/-- C1 witness: the theorem applied to the concrete input `"Click>=7.0"`. -/
theorem c1_witness :
    get_python_dependency ("Click>=7.0") = some ("click") ∧ (("click") : String) ≠ "" :=
  ⟨by decide, (c1_normalized_shape ("Click>=7.0") ("click") (by decide)).1⟩

/-- C1 counterexample: the normalizer maps `"É"` (É is alphabetic, so it is
accepted; it is not ASCII, so `to_ascii_lowercase` leaves it unchanged) to
`"É"`, whose single character is alphabetic but not lowercase; so the result
is not composed of lowercase letters and hyphens as claimed. -/
theorem c1_counterexample :
    get_python_dependency ("É") = some ("É") ∧
    ¬(∀ c ∈ ("É" : String).data, c = '-' ∨ (is_alphabetic c = true ∧ is_lowercase c = true)) :=
  ⟨by decide, by decide⟩

/-- C2 (amended): `get_name` returns the project name if present, else the
poetry name if present, else nothing; the returned field is consumed and
each field is consumed at most once, every other field being left untouched;
once both name fields have been exhausted - in particular from the third
call on - calls return nothing. (The unamended claim, that a single
successful call already makes all subsequent calls return nothing, fails
when both sections carry a name: the first call takes only the project name
and a second call still returns the poetry name - see the counterexample.) -/
theorem c2_get_name (p : Pyproject) :
    (get_name p).1 = (match p.project.name with
      | some n => some n
      | none => p.tool.poetry.name) ∧
    ((get_name p).2).project.name = none ∧
    ((get_name p).2).tool.poetry.name = (match p.project.name with
      | some _ => p.tool.poetry.name
      | none => none) ∧
    ((get_name p).2).project.license = p.project.license ∧
    ((get_name p).2).project.dependencies = p.project.dependencies ∧
    ((get_name p).2).tool.poetry.license = p.tool.poetry.license ∧
    ((get_name p).2).tool.poetry.dependencies = p.tool.poetry.dependencies ∧
    (get_name ((get_name ((get_name p).2)).2)).1 = none := by
  cases hp : p.project.name <;> cases hq : p.tool.poetry.name <;>
    simp [get_name, hp, hq]

/-- C2 counterexample: when both sections carry a name, the first `get_name`
call returns the project name, yet a second call still returns the poetry
name instead of nothing, contradicting the claim that once a name has been
taken subsequent calls return nothing. -/
theorem c2_counterexample :
    (get_name ⟨⟨some ("a"), none, none⟩, ⟨⟨some ("b"), none, none⟩⟩⟩).1 = some ("a") ∧
    (get_name (get_name ⟨⟨some ("a"), none, none⟩, ⟨⟨some ("b"), none, none⟩⟩⟩).2).1
      = some ("b") ∧
    (get_name (get_name ⟨⟨some ("a"), none, none⟩, ⟨⟨some ("b"), none, none⟩⟩⟩).2).1
      ≠ none := by
  refine ⟨rfl, rfl, by decide⟩

/-- C3: `get_dependencies` with a present project dependency list consumes
it, filters each entry through the normalizer and returns the result set,
leaving the poetry dependencies untouched and unused (the result does not
depend on them); only when the project list is absent is the poetry map
used; the call returns `none` exactly when neither section has a dependency
source, and a present-but-empty source yields `some []`. -/
theorem c3_take_dependencies (p : Pyproject) :
    (∀ l, p.project.dependencies = some l →
       (get_dependencies p).1 = some (l.filterMap get_python_dependency) ∧
       ((get_dependencies p).2).project.dependencies = none ∧
       ((get_dependencies p).2).tool.poetry.dependencies = p.tool.poetry.dependencies) ∧
    (∀ ks, p.project.dependencies = none → p.tool.poetry.dependencies = some ks →
       (get_dependencies p).1 =
         some ((ks.filter (fun kv => kv ≠ (("python"), ()))).map
           (fun kv => poetry_dep_key kv.1))) ∧
    ((get_dependencies p).1 = none ↔
       p.project.dependencies = none ∧ p.tool.poetry.dependencies = none) ∧
    (p.project.dependencies = some [] → (get_dependencies p).1 = some []) ∧
    (p.project.dependencies = none → p.tool.poetry.dependencies = some [] →
       (get_dependencies p).1 = some []) := by
  cases hp : p.project.dependencies with
  | some l =>
    rw [get_dependencies_project p l hp]
    simp [hp]
    rintro rfl
    intro a ha
    exact absurd ha (List.not_mem_nil a)
  | none =>
    cases hq : p.tool.poetry.dependencies with
    | some ks =>
      rw [get_dependencies_poetry p ks hp hq]
      simp [hp, hq]
      rintro rfl
      intro a b hab
      exact absurd hab (List.not_mem_nil (a, b))
    | none =>
      rw [get_dependencies_none p hp hq]
      simp [hp, hq]

/-- C3 witness: both sections declare dependencies; only the project list is
used and normalized. -/
theorem c3_witness :
    (get_dependencies (⟨⟨none, none, some [("Click>=7.0")]⟩,
        ⟨⟨none, none, some [(("python"), ()), (("Foo_bar"), ())]⟩⟩⟩ : Pyproject)).1
      = some ([("click")]) := by
  have h := ((c3_take_dependencies (⟨⟨none, none, some [("Click>=7.0")]⟩,
      ⟨⟨none, none, some [(("python"), ()), (("Foo_bar"), ())]⟩⟩⟩ : Pyproject)).1
      ([("Click>=7.0")]) rfl).1
  rw [h]
  decide

/-- C4 (amended): on the poetry path the reserved element `("python", ())`
is removed from the set before normalization, so the key `"python"` itself
never contributes; `"python"` can appear in the result set only when some
other key normalizes to it (for instance the key `"Python"` lowercases to
`"python"` - see the counterexample, which refutes the unamended claim that
a map containing the key `"python"` never yields `"python"` at all). -/
theorem c4_reserved_key (p : Pyproject) (ks : List (String × Unit))
    (h1 : p.project.dependencies = none)
    (h2 : p.tool.poetry.dependencies = some ks)
    (hno : ∀ kv ∈ ks, kv.1 = ("python") ∨ poetry_dep_key kv.1 ≠ ("python")) :
    ∀ r, (get_dependencies p).1 = some r → ("python") ∉ r := by
  intro r hr hmem
  rw [get_dependencies_poetry p ks h1 h2] at hr
  simp only [Option.some.injEq] at hr
  rw [← hr, List.mem_map] at hmem
  obtain ⟨kv, hkv, hkey⟩ := hmem
  rw [List.mem_filter] at hkv
  obtain ⟨hks, hne⟩ := hkv
  simp only [ne_eq, decide_not, Bool.not_eq_eq_eq_not, Bool.not_true,
    decide_eq_false_iff_not] at hne
  obtain ⟨k, u⟩ := kv
  cases u
  rcases hno (k, ()) hks with hcase | hcase
  · exact hne (by rw [show k = ("python") from hcase])
  · exact hcase hkey

/-- C4 witness: the theorem applied to a concrete poetry map holding the
reserved key `"python"` and the key `"Numpy"` (which does not normalize to
`"python"`): the result set does not contain `"python"`. -/
theorem c4_witness :
    ("python") ∉ [("numpy")] :=
  c4_reserved_key
    (⟨⟨none, none, none⟩, ⟨⟨none, none, some [(("python"), ()), (("Numpy"), ())]⟩⟩⟩ : Pyproject)
    [(("python"), ()), (("Numpy"), ())] rfl rfl (by decide) [("numpy")] (by decide)

/-- C4 counterexample: a poetry map with keys `"Python"` and `"python"`.
The reserved element `("python", ())` is removed, but the remaining key
`"Python"` lowercases to `"python"`, so the result set does contain
`"python"` even though the map contains the key `"python"`. -/
theorem c4_counterexample :
    (("python"), ()) ∈ [(("Python"), ()), (("python"), ())] ∧
    (get_dependencies (⟨⟨none, none, none⟩,
        ⟨⟨none, none, some [(("Python"), ()), (("python"), ())]⟩⟩⟩ : Pyproject)).1
      = some ([("python")]) ∧
    ("python") ∈ [("python")] := by
  refine ⟨by decide, by decide, by decide⟩

/-- C5: inserting an already-present identifier into the license-weight map
overwrites its weight (the new weight is the inserted one, never an
accumulation); every insertion performed by `load_license` uses weight `1`,
so any identifier's weight after a `load_license` pass is either untouched
or exactly `1`; in particular presenting the same identifier from two
sources leaves its weight at `1`, not `2`. -/
theorem c5_license_weights :
    (∀ m k v, map_lookup (map_insert m k v) k = some v) ∧
    (∀ spdx p m i, map_lookup (load_license spdx p m) i = some 1 ∨
       map_lookup (load_license spdx p m) i = map_lookup m i) ∧
    (∀ spdx p1 p2 m i l1 l2,
       selected_license p1 = some l1 → i ∈ spdx l1 ("pyproject.toml") →
       selected_license p2 = some l2 → i ∈ spdx l2 ("pyproject.toml") →
       map_lookup (load_license spdx p2 (load_license spdx p1 m)) i = some 1) := by
  refine ⟨lookup_insert_self, ?_, ?_⟩
  · intro spdx p m i
    cases hl : selected_license p with
    | none => rw [load_license_none spdx p hl m]; exact Or.inr rfl
    | some l =>
      rw [load_license_some spdx p l hl m, lookup_foldl_insert]
      by_cases hm : i ∈ spdx l ("pyproject.toml")
      · rw [if_pos hm]; exact Or.inl rfl
      · rw [if_neg hm]; exact Or.inr rfl
  · intro spdx p1 p2 m i l1 l2 hl1 hm1 hl2 hm2
    rw [load_license_some spdx p2 l2 hl2, lookup_foldl_insert, if_pos hm2]

/-- C5 witness: a concrete SPDX collaborator returning the license text
itself as sole identifier, and two manifests both carrying license `"MIT"`:
after both passes the weight of `"MIT"` is `1`. -/
theorem c5_witness :
    map_lookup
      (load_license (fun l _ => [l])
        (⟨⟨none, none, none⟩, ⟨⟨none, some ("MIT"), none⟩⟩⟩ : Pyproject)
        (load_license (fun l _ => [l])
          (⟨⟨none, some ("MIT"), none⟩, ⟨⟨none, none, none⟩⟩⟩ : Pyproject) []))
      ("MIT") = some 1 :=
  c5_license_weights.2.2 (fun l _ => [l])
    (⟨⟨none, some ("MIT"), none⟩, ⟨⟨none, none, none⟩⟩⟩ : Pyproject)
    (⟨⟨none, none, none⟩, ⟨⟨none, some ("MIT"), none⟩⟩⟩ : Pyproject)
    [] ("MIT") ("MIT") ("MIT") rfl (by decide) rfl (by decide)

/-- C6: the normalizer returns no result on empty input, on input that is
all whitespace, and on input whose first character after leading whitespace
is not alphabetic. -/
theorem c6_rejects (s : String)
    (h : s = "" ∨ (∀ c ∈ s.data, is_whitespace c = true) ∨
         (∃ x rest, s.data.dropWhile is_whitespace = x :: rest ∧ is_alphabetic x = false)) :
    get_python_dependency s = none := by
  unfold get_python_dependency
  rcases h with h | h | ⟨x, rest, hd, hx⟩
  · rw [h]
    decide
  · rw [List.dropWhile_eq_nil_iff.mpr h]
  · rw [hd]
    simp [hx]

/-- C6 witness: the theorem applied to the comment line `"# comment"`, whose
first character after (no) whitespace is `#`. -/
theorem c6_witness : get_python_dependency ("# comment") = none :=
  c6_rejects ("# comment")
    (Or.inr (Or.inr ⟨'#', (" comment").data, by decide, by decide⟩))

/-- C7: concrete normalizations - `"Click>=7.0"` is case folded and cut at
the version specifier, `"some_package.name"` has each separator become a
single hyphen, and the trailing separator of `"foo-"` is dropped. -/
theorem c7_examples :
    get_python_dependency ("Click>=7.0") = some ("click") ∧
    get_python_dependency ("some_package.name") = some ("some-package-name") ∧
    get_python_dependency ("foo-") = some ("foo") :=
  ⟨by decide, by decide, by decide⟩

/-- C8: the normalizer is idempotent on its own outputs - whenever it yields
a canonical name, running it again on that name yields the name unchanged. -/
theorem c8_idempotent (s n : String) (h : get_python_dependency s = some n) :
    get_python_dependency n = some n := by
  obtain ⟨x, rest, hd, hx, hn⟩ := gpd_shape h
  have hxa : is_alphabetic (to_ascii_lowercase x) = true := alpha_lower x hx
  have hws : ¬(is_whitespace (to_ascii_lowercase x) = true) := by
    rw [ws_false_of_alpha _ hxa]
    exact Bool.false_ne_true
  have hdrop : n.data.dropWhile is_whitespace
      = to_ascii_lowercase x :: scan_name rest := by
    rw [hn]
    exact List.dropWhile_cons_of_neg hws
  rw [gpd_of_cons (to_ascii_lowercase x) (scan_name rest) hdrop hxa,
    lower_idem, scan_name_fix (scan_name_normTail rest), ← hn]

/-- C8 witness: the theorem applied at `"Click>=7.0"`, whose normalization
`"click"` renormalizes to itself. -/
theorem c8_witness : get_python_dependency ("click") = some ("click") :=
  c8_idempotent ("Click>=7.0") ("click") (by decide)

/-- C9: `parse_requirements_txt` returns nothing exactly when the
requirements file could not be opened; when it opens, it returns the set of
successful normalizations of its readable lines (lines that fail to read or
to normalize are dropped), and an empty file yields `some []`, not `none`. -/
theorem c9_requirements (file : Option (List (Option String))) :
    (parse_requirements_txt file = none ↔ file = none) ∧
    (∀ lines, file = some lines →
       parse_requirements_txt file =
         some (lines.filterMap (fun line => line.bind get_python_dependency))) ∧
    (file = some [] → parse_requirements_txt file = some []) := by
  cases file with
  | none => simp [parse_requirements_txt]
  | some lines =>
    simp [parse_requirements_txt]
    rintro rfl
    intro a ha
    exact absurd ha (List.not_mem_nil a)

/-- C9 witness: the theorem applied to a present file with one comment line,
one unreadable line and one dependency line. -/
theorem c9_witness :
    parse_requirements_txt (some [some ("# comment"), none, some ("Click>=7.0")])
      = some ([("click")]) := by
  have h := (c9_requirements (some [some ("# comment"), none, some ("Click>=7.0")])).2.1
    [some ("# comment"), none, some ("Click>=7.0")] rfl
  rw [h]
  decide

/-- C10: on the poetry path every remaining key is mapped to exactly its
lowercasing with `_` and `.` replaced by `-` and nothing else, so digits,
existing hyphens and trailing separators survive: `"foo2"` yields `"foo2"`
and `"bar_"` yields `"bar-"` - strings the specifier normalizer can never
output, since its results contain no digits and never end in a hyphen. -/
theorem c10_poetry_keys (p : Pyproject) (ks : List (String × Unit))
    (h1 : p.project.dependencies = none)
    (h2 : p.tool.poetry.dependencies = some ks) :
    (get_dependencies p).1 =
      some ((ks.filter (fun kv => kv ≠ (("python"), ()))).map (fun kv => poetry_dep_key kv.1)) ∧
    poetry_dep_key ("foo2") = "foo2" ∧
    poetry_dep_key ("bar_") = "bar-" ∧
    (∀ s, get_python_dependency s ≠ some ("foo2")) ∧
    (∀ s, get_python_dependency s ≠ some ("bar-")) := by
  refine ⟨by rw [get_dependencies_poetry p ks h1 h2], by decide, by decide, ?_, ?_⟩
  · intro s hs
    rcases gpd_chars hs '2' (by decide) with hc | ⟨a, ha, hc⟩
    · exact absurd hc (by decide)
    · have := alpha_lower a ha
      rw [← hc] at this
      exact absurd this (by decide)
  · intro s hs
    have := gpd_last_alpha hs '-' (by decide)
    exact absurd this (by decide)

/-- C10 witness: the theorem applied to a concrete poetry map with keys
`"python"`, `"foo2"` and `"Bar_"`. -/
theorem c10_witness :
    (get_dependencies (⟨⟨none, none, none⟩,
        ⟨⟨none, none, some [(("python"), ()), (("foo2"), ()), (("Bar_"), ())]⟩⟩⟩ : Pyproject)).1
      = some ([("foo2"), ("bar-")]) := by
  have h := (c10_poetry_keys (⟨⟨none, none, none⟩,
      ⟨⟨none, none, some [(("python"), ()), (("foo2"), ()), (("Bar_"), ())]⟩⟩⟩ : Pyproject)
      [(("python"), ()), (("foo2"), ()), (("Bar_"), ())] rfl rfl).1
  rw [h]
  decide

end PythonDeps
